import Mathlib

set_option maxHeartbeats 1000000

/-! Shallow embedding of the sliding-puzzle engine of
`src/programs/PySlidingPuzzle.py`, together with proofs of the specified
properties of its grid model, shuffle, move validation, solved detection,
session timing and leaderboard store. -/

/-- A slot of the tile layout: `none` is the empty marker, `some (r, c)` is
the tile whose solved-state (origin) coordinate is `(r, c)`. -/
abbrev Tile := Option (Nat × Nat)

/-- Row-major linear index of a grid coordinate: `row * cols + col`. -/
def pidx (cols : Nat) (p : Nat × Nat) : Nat := p.1 * cols + p.2

/-- `SlidingPuzzleGame._create_tiles`: the identity layout, row-major, with
the empty marker at the bottom-right cell `(rows - 1, cols - 1)`. -/
def createTiles (rows cols : Nat) : List Tile :=
  ((List.range rows).map (fun r =>
    (List.range cols).map (fun c =>
      if r = rows - 1 ∧ c = cols - 1 then none else some (r, c)))).flatten

/-- The mutable session fields of `SlidingPuzzleGame`: tile layout, cached
empty position, start time (`None` until the first accepted move) and the
solved flag.  Wall-clock instants are modelled as rationals. -/
structure PuzzleState where
  tiles : List Tile
  emptyPos : Nat × Nat
  startTime : Option ℚ
  solved : Bool
deriving DecidableEq, Repr

/-- The session fields right after `__init__` runs `_create_tiles`, before
`_shuffle_tiles`: identity layout, empty at the bottom-right. -/
def initState (rows cols : Nat) : PuzzleState :=
  { tiles := createTiles rows cols
    emptyPos := (rows - 1, cols - 1)
    startTime := none
    solved := false }

/-- The per-slot check of `_is_solved`: the empty marker must sit at the
coordinate `divmod(idx, cols) = (rows - 1, cols - 1)`, and a tile must carry
origin coordinate `divmod(idx, cols)`. -/
def slotOK (rows cols idx : Nat) : Tile → Bool
  | none => decide (idx / cols = rows - 1 ∧ idx % cols = cols - 1)
  | some t => decide (t = (idx / cols, idx % cols))

/-- The enumeration loop of `_is_solved`, carrying the running index. -/
def checkFrom (rows cols : Nat) : Nat → List Tile → Bool
  | _, [] => true
  | idx, t :: ts => slotOK rows cols idx t && checkFrom rows cols (idx + 1) ts

/-- `SlidingPuzzleGame._is_solved`. -/
def isSolved (rows cols : Nat) (tiles : List Tile) : Bool :=
  checkFrom rows cols 0 tiles

/-- The candidate-move list built in each iteration of `_shuffle_tiles`,
in source order: the four orthogonal neighbours of the empty position that
lie inside the grid. -/
def possibleMoves (rows cols : Nat) (ep : Nat × Nat) : List (Nat × Nat) :=
  (if 0 < ep.1 then [(ep.1 - 1, ep.2)] else []) ++
  (if ep.1 < rows - 1 then [(ep.1 + 1, ep.2)] else []) ++
  (if 0 < ep.2 then [(ep.1, ep.2 - 1)] else []) ++
  (if ep.2 < cols - 1 then [(ep.1, ep.2 + 1)] else [])

/-- One iteration of the `_shuffle_tiles` loop on the pair
(tiles, local empty position).  `random.choice` is modelled by an oracle
value `pick`, reduced modulo the length of the candidate list. -/
def shuffleStep (rows cols : Nat) (pick : Nat) (st : List Tile × (Nat × Nat)) :
    List Tile × (Nat × Nat) :=
  let pm := possibleMoves rows cols st.2
  if pm.isEmpty then st
  else
    let mv := pm.getD (pick % pm.length) (0, 0)
    ((st.1.set (pidx cols st.2) (st.1.getD (pidx cols mv) none)).set
        (pidx cols mv) none,
      mv)

/-- The move count of `_shuffle_tiles`:
`self.rows * self.cols * (self.rows + self.cols)^2`, where `^` is Python's
bitwise XOR (binding looser than `*`), not exponentiation. -/
def numMoves (rows cols : Nat) : Nat :=
  Nat.xor (rows * cols * (rows + cols)) 2

/-- `SlidingPuzzleGame._shuffle_tiles`: a walk of `numMoves` random legal
swaps starting from the given layout with the empty slot at the
bottom-right; returns the final layout and the final empty position (which
the method writes back to `self.empty_pos`). -/
def shuffleTiles (rows cols : Nat) (rand : Nat → Nat) (tiles : List Tile) :
    List Tile × (Nat × Nat) :=
  (List.range (numMoves rows cols)).foldl
    (fun st i => shuffleStep rows cols (rand i) st)
    (tiles, (rows - 1, cols - 1))

/-- The game-state part of `SlidingPuzzleGame.__init__`: start time unset,
not solved, identity layout from `_create_tiles`, then `_shuffle_tiles`. -/
def newGame (rows cols : Nat) (rand : Nat → Nat) : PuzzleState :=
  let p := shuffleTiles rows cols rand (createTiles rows cols)
  { tiles := p.1
    emptyPos := p.2
    startTime := none
    solved := false }

/-- The accepted-move core of `_try_move`: set the start time if it was
unset, swap the empty slot with the target slot, cache the new empty
position.  `now` is the wall-clock instant of the `time.time()` call. -/
def applyAccepted (cols : Nat) (s : PuzzleState) (r c : Nat) (now : ℚ) :
    PuzzleState :=
  let eIdx := s.emptyPos.1 * cols + s.emptyPos.2
  let tIdx := r * cols + c
  { tiles := (s.tiles.set eIdx (s.tiles.getD tIdx none)).set tIdx none
    emptyPos := (r, c)
    startTime := some (s.startTime.getD now)
    solved := s.solved }

/-- `SlidingPuzzleGame._try_move`.  The target is an arbitrary pair of
Python integers.  Returns the new state and the emitted outcome: `some e`
is the solved event of `_on_solved` carrying the elapsed time `e`. -/
def tryMove (rows cols : Nat) (s : PuzzleState) (pos : ℤ × ℤ) (now : ℚ) :
    PuzzleState × Option ℚ :=
  if s.solved then (s, none)
  else if ¬(0 ≤ pos.1 ∧ pos.1 < (rows : ℤ) ∧ 0 ≤ pos.2 ∧ pos.2 < (cols : ℤ)) then
    (s, none)
  else if ((s.emptyPos.1 : ℤ) - pos.1).natAbs + ((s.emptyPos.2 : ℤ) - pos.2).natAbs ≠ 1 then
    (s, none)
  else
    let s' := applyAccepted cols s pos.1.toNat pos.2.toNat now
    if isSolved rows cols s'.tiles then
      ({ s' with solved := true }, some (now - s'.startTime.getD 0))
    else (s', none)

/-- The four direction keys handled by `_on_key`. -/
inductive ArrowKey | up | down | left | right
deriving DecidableEq, Repr

/-- The target cell computed by `_on_key` from the current empty position:
`Up` targets `(er + 1, ec)`, `Down` targets `(er - 1, ec)`, `Left` targets
`(er, ec + 1)`, `Right` targets `(er, ec - 1)` (Python integers, so the
results may be negative). -/
def keyTarget (ep : Nat × Nat) : ArrowKey → ℤ × ℤ
  | .up => ((ep.1 : ℤ) + 1, (ep.2 : ℤ))
  | .down => ((ep.1 : ℤ) - 1, (ep.2 : ℤ))
  | .left => ((ep.1 : ℤ), (ep.2 : ℤ) + 1)
  | .right => ((ep.1 : ℤ), (ep.2 : ℤ) - 1)

/-- `SlidingPuzzleGame._on_key`: translate the key to a target cell and
hand it to `_try_move`. -/
def onKey (rows cols : Nat) (s : PuzzleState) (k : ArrowKey) (now : ℚ) :
    PuzzleState × Option ℚ :=
  tryMove rows cols s (keyTarget s.emptyPos k) now

/-- The session state of the data model, derived from the concrete fields:
`solved` flag set means solved; otherwise an unset start time means the
session has not started, and a set one means it is running. -/
inductive SessionState | notStarted | running | solvedDone
deriving DecidableEq, Repr

/-- Observer deriving the data model's session state from the fields. -/
def sessionState (s : PuzzleState) : SessionState :=
  if s.solved then .solvedDone
  else if s.startTime = none then .notStarted
  else .running

/-- A leaderboard entry: initials and a completion time in seconds. -/
structure Entry where
  initials : String
  time : ℚ
deriving DecidableEq, Repr

/-- The comparison key of Python's stable sort in `Leaderboard.record`:
ascending by time. -/
def entryLE (a b : Entry) : Bool := decide (a.time ≤ b.time)

/-- The persisted leaderboard mapping, a JSON object from size-key strings
to entry lists, modelled as an association list. -/
abbrev Store := List (String × List Entry)

/-- Python `dict.get(key, [])` on the parsed mapping. -/
def dictGet (d : Store) (k : String) : List Entry :=
  match d with
  | [] => []
  | (k', v) :: rest => if k' = k then v else dictGet rest k

/-- Python `data[key] = scores`: replace the value of an existing key in
place, or add the key at the end. -/
def dictSet (d : Store) (k : String) (v : List Entry) : Store :=
  match d with
  | [] => [(k, v)]
  | (k', v') :: rest =>
      if k' = k then (k, v) :: rest else (k', v') :: dictSet rest k v

/-- The leaderboard size-key `f"{rows}x{cols}"`. -/
def sizeKey (rows cols : Nat) : String :=
  toString rows ++ "x" ++ toString cols

/-- Python's `round` to an integer: round half to even. -/
def pyRound (x : ℚ) : ℤ :=
  if x - ⌊x⌋ = 1 / 2 then (if 2 ∣ ⌊x⌋ then ⌊x⌋ else ⌊x⌋ + 1) else round x

/-- Python's `round(t, 2)`: round half to even at two decimal places. -/
def round2 (t : ℚ) : ℚ := (pyRound (t * 100) : ℚ) / 100

/-- The pure store update of `Leaderboard.record` on an already-loaded
mapping: append the new entry with the time rounded to 2 decimals, sort the
key's list ascending by time with Python's stable sort, keep the first 10,
store the list back under the key. -/
def record (d : Store) (rows cols : Nat) (t : ℚ) (ini : String) : Store :=
  let key := sizeKey rows cols
  let scores := dictGet d key
  dictSet d key
    (((scores ++ [({ initials := ini, time := round2 t } : Entry)]).mergeSort entryLE).take 10)

/-- A sequence of `Leaderboard.record` calls for one grid size, each given
as an (elapsed time, initials) pair. -/
def recordAll (d : Store) (rows cols : Nat) (calls : List (ℚ × String)) : Store :=
  calls.foldl (fun acc c => record acc rows cols c.1 c.2) d

/-- The observable states of the backing leaderboard file as classified by
`Leaderboard.record`: absent (`LEADERBOARD_FILE.exists()` false), present
but empty, present but rejected by the external `json.loads`
(`JSONDecodeError`, also raised on empty text), present and holding
well-formed JSON that is not a mapping from strings to entry lists (for
example a JSON array, or a mapping whose value is a number), or parsed to
a leaderboard mapping. -/
inductive FileState
  | absent
  | empty
  | unparsable
  | wrongShape
  | parsed (d : Store)
deriving DecidableEq

/-- The value bound to `data` after the try/except of `Leaderboard.record`
(lines 418-423), which catches only `json.JSONDecodeError`: a leaderboard
mapping when the file is absent, empty, rejected by the JSON parser, or
parses to the expected shape; a non-mapping JSON value otherwise, which
flows on uncaught. -/
inductive LoadedData
  | mapping (d : Store)
  | badJson
deriving DecidableEq

/-- The load phase of `Leaderboard.record`: absent file, empty file and
`JSONDecodeError` all degrade to the empty mapping; well-formed JSON of
the wrong shape is not caught and is passed along as-is. -/
def loadData : FileState → LoadedData
  | .absent => .mapping []
  | .empty => .mapping []
  | .unparsable => .mapping []
  | .wrongShape => .badJson
  | .parsed d => .mapping d

/-- Whole `Leaderboard.record` on a backing file: on a loaded mapping it
computes the full mapping written back; on well-formed JSON of the wrong
shape the subsequent `data.get(key, [])` or `scores.append(...)` call
raises an uncaught `AttributeError`/`TypeError`, modelled as `.error ()`. -/
def recordFile (fs : FileState) (rows cols : Nat) (t : ℚ) (ini : String) :
    Except Unit Store :=
  match loadData fs with
  | .mapping d => .ok (record d rows cols t ini)
  | .badJson => .error ()

/-- The entry built by `Leaderboard.record` from one call's elapsed time
and initials. -/
def mkEntry (c : ℚ × String) : Entry :=
  { initials := c.2, time := round2 c.1 }

/-- The data-model invariant on the mutable layout fields: the layout is a
permutation of the identity layout (hence has exactly one empty marker and
carries every origin coordinate except the bottom-right one exactly once),
the cached empty position is inside the grid and the slot it indexes really
holds the empty marker. -/
def InvT (rows cols : Nat) (tiles : List Tile) (ep : Nat × Nat) : Prop :=
  tiles.Perm (createTiles rows cols) ∧ ep.1 < rows ∧ ep.2 < cols ∧
    tiles[pidx cols ep]? = some none

/-- The full data-model layout invariant of C4, on the mutable fields:
exactly one empty marker; the layout is a permutation of the identity
layout (so the origin coordinates of the non-empty slots are exactly the
grid coordinates minus the bottom-right one); and the cached empty position
is in bounds and indexes the slot that actually holds the empty marker. -/
def InvFull (rows cols : Nat) (tiles : List Tile) (ep : Nat × Nat) : Prop :=
  tiles.count none = 1 ∧ InvT rows cols tiles ep

/-- A legal single-tile move on (layout, empty position) pairs: the empty
slot swaps with an in-bounds cell at Manhattan distance exactly 1 (the
legality rule of `_try_move`, and the exact swap both `_try_move` and the
shuffle loop perform). -/
def MoveRel (rows cols : Nat) (a b : List Tile × (Nat × Nat)) : Prop :=
  ∃ mv : Nat × Nat, mv.1 < rows ∧ mv.2 < cols ∧
    ((a.2.1 : ℤ) - mv.1).natAbs + ((a.2.2 : ℤ) - mv.2).natAbs = 1 ∧
    b = ((a.1.set (pidx cols a.2) (a.1.getD (pidx cols mv) none)).set
          (pidx cols mv) none,
        mv)

/-! ### List helpers -/

theorem set_of_getElem? {α : Type} {l : List α} {i : Nat} {v : α}
    (h : l[i]? = some v) : l.set i v = l := by
  induction l generalizing i with
  | nil => simp at h
  | cons x xs ih =>
    cases i with
    | zero => simp at h; simp [h]
    | succ j => simp at h; simp [List.set_cons_succ, ih h]

theorem cons_set_perm {α : Type} {xs : List α} {k : Nat} {b : α}
    (hb : xs[k]? = some b) (a : α) : (b :: xs.set k a).Perm (a :: xs) := by
  induction xs generalizing k with
  | nil => simp at hb
  | cons y ys ih =>
    cases k with
    | zero =>
      simp at hb
      rw [← hb]
      exact List.Perm.swap a y ys
    | succ j =>
      simp at hb
      exact ((List.Perm.swap y b _).trans ((ih hb).cons y)).trans
        (List.Perm.swap a y ys)

theorem swap_perm {α : Type} {l : List α} {i j : Nat} {a b : α}
    (hi : l[i]? = some a) (hj : l[j]? = some b) (hij : i ≠ j) :
    ((l.set i b).set j a).Perm l := by
  induction l generalizing i j with
  | nil => simp at hi
  | cons x xs ih =>
    cases i with
    | zero =>
      cases j with
      | zero => exact absurd rfl hij
      | succ j' =>
        simp at hi hj
        rw [← hi]
        exact cons_set_perm hj x
    | succ i' =>
      cases j with
      | zero =>
        simp at hi hj
        rw [← hj]
        exact cons_set_perm hi x
      | succ j' =>
        simp at hi hj
        simpa using (ih hi hj (fun h => hij (congrArg Nat.succ h))).cons x

theorem take_append_take {α : Type} (L M : List α) (n : Nat) :
    (L.take n ++ M).take n = (L ++ M).take n := by
  rw [List.take_append_eq_append_take, List.take_append_eq_append_take,
    List.take_take]
  have h1 : min n n = n := by omega
  have h2 : n - (L.take n).length = n - L.length := by
    simp [List.length_take]; omega
  rw [h1, h2]

/-! ### Grid index lemmas -/

theorem pidx_inj {cols : Nat} {p q : Nat × Nat} (hp : p.2 < cols)
    (hq : q.2 < cols) (h : pidx cols p = pidx cols q) : p = q := by
  unfold pidx at h
  have hcols : 0 < cols := Nat.lt_of_le_of_lt (Nat.zero_le _) hp
  have h1 : p.1 = q.1 := by
    have e1 : (p.1 * cols + p.2) / cols = p.1 := by
      rw [Nat.mul_comm p.1 cols, Nat.mul_add_div hcols, Nat.div_eq_of_lt hp,
        Nat.add_zero]
    have e2 : (q.1 * cols + q.2) / cols = q.1 := by
      rw [Nat.mul_comm q.1 cols, Nat.mul_add_div hcols, Nat.div_eq_of_lt hq,
        Nat.add_zero]
    rw [← e1, ← e2, h]
  have h2 : p.2 = q.2 := by
    have e1 : (p.1 * cols + p.2) % cols = p.2 := by
      rw [Nat.mul_comm p.1 cols, Nat.mul_add_mod, Nat.mod_eq_of_lt hp]
    have e2 : (q.1 * cols + q.2) % cols = q.2 := by
      rw [Nat.mul_comm q.1 cols, Nat.mul_add_mod, Nat.mod_eq_of_lt hq]
    rw [← e1, ← e2, h]
  exact Prod.ext h1 h2

theorem pidx_lt {rows cols : Nat} {p : Nat × Nat} (h1 : p.1 < rows)
    (h2 : p.2 < cols) : pidx cols p < rows * cols := by
  unfold pidx
  calc p.1 * cols + p.2 < p.1 * cols + cols := by omega
    _ = (p.1 + 1) * cols := by rw [Nat.succ_mul]
    _ ≤ rows * cols := Nat.mul_le_mul_right cols h1

theorem createTiles_length (rows cols : Nat) :
    (createTiles rows cols).length = rows * cols := by
  simp [createTiles, Function.comp_def, List.map_const]

/-! ### The layout invariant and its preservation by a single swap -/

theorem InvT.length {rows cols : Nat} {tiles : List Tile} {ep : Nat × Nat}
    (h : InvT rows cols tiles ep) : tiles.length = rows * cols :=
  h.1.length_eq.trans (createTiles_length rows cols)

theorem swap_invT {rows cols : Nat} {tiles : List Tile} {ep mv : Nat × Nat}
    (hInv : InvT rows cols tiles ep) (h1 : mv.1 < rows) (h2 : mv.2 < cols)
    (hne : mv ≠ ep) :
    InvT rows cols
      ((tiles.set (pidx cols ep) (tiles.getD (pidx cols mv) none)).set
        (pidx cols mv) none) mv := by
  obtain ⟨hperm, her, hec, hget⟩ := hInv
  have hlen : tiles.length = rows * cols :=
    hperm.length_eq.trans (createTiles_length rows cols)
  have hmlt : pidx cols mv < tiles.length := by rw [hlen]; exact pidx_lt h1 h2
  have hidx : pidx cols mv ≠ pidx cols ep := by
    intro h
    exact hne (pidx_inj h2 hec h)
  obtain ⟨x, hx⟩ : ∃ x, tiles[pidx cols mv]? = some x :=
    ⟨_, List.getElem?_eq_getElem hmlt⟩
  have hgd : tiles.getD (pidx cols mv) none = x := by
    simp [List.getD_eq_getElem?_getD, hx]
  refine ⟨?_, h1, h2, ?_⟩
  · rw [hgd]
    exact (swap_perm hget hx (fun h => hidx h.symm)).trans hperm
  · have hmlt2 :
        pidx cols mv <
          (tiles.set (pidx cols ep) (tiles.getD (pidx cols mv) none)).length := by
      rw [List.length_set]; exact hmlt
    exact List.getElem?_set_self hmlt2

/-! ### Shuffle-step and move preservation of the invariant -/

theorem possibleMoves_spec {rows cols : Nat} {ep mv : Nat × Nat}
    (her : ep.1 < rows) (hec : ep.2 < cols)
    (h : mv ∈ possibleMoves rows cols ep) :
    mv.1 < rows ∧ mv.2 < cols ∧ mv ≠ ep ∧
      ((ep.1 : ℤ) - mv.1).natAbs + ((ep.2 : ℤ) - mv.2).natAbs = 1 := by
  obtain ⟨er, ec⟩ := ep
  simp only [possibleMoves, List.mem_append, List.mem_ite_nil_right,
    List.mem_singleton] at h
  rcases h with ((⟨hc, rfl⟩ | ⟨hc, rfl⟩) | ⟨hc, rfl⟩) | ⟨hc, rfl⟩ <;>
    refine ⟨by simp <;> omega, by simp <;> omega,
      by simp [Prod.ext_iff] <;> omega, by simp <;> omega⟩

theorem shuffleStep_invT {rows cols pick : Nat} {st : List Tile × (Nat × Nat)}
    (hInv : InvT rows cols st.1 st.2) :
    InvT rows cols (shuffleStep rows cols pick st).1
      (shuffleStep rows cols pick st).2 := by
  by_cases he : (possibleMoves rows cols st.2).isEmpty
  · simpa [shuffleStep, he] using hInv
  · have hlenpos : 0 < (possibleMoves rows cols st.2).length := by
      rcases hpm : possibleMoves rows cols st.2 with _ | ⟨a, l⟩
      · rw [hpm] at he; simp at he
      · simp
    have hmem :
        (possibleMoves rows cols st.2).getD
            (pick % (possibleMoves rows cols st.2).length) (0, 0)
          ∈ possibleMoves rows cols st.2 := by
      have hlt := Nat.mod_lt pick hlenpos
      rw [List.getD_eq_getElem?_getD, List.getElem?_eq_getElem hlt]
      exact List.getElem_mem hlt
    obtain ⟨h1, h2, hne, _⟩ := possibleMoves_spec hInv.2.1 hInv.2.2.1 hmem
    simpa [shuffleStep, he, pidx] using swap_invT hInv h1 h2 hne

theorem foldl_preserves {α β : Type} (P : β → Prop) (f : β → α → β)
    (hstep : ∀ b a, P b → P (f b a)) :
    ∀ (l : List α) (b), P b → P (l.foldl f b)
  | [], _, h => h
  | a :: l, b, h => foldl_preserves P f hstep l (f b a) (hstep b a h)

theorem shuffleTiles_invT {rows cols : Nat} (rand : Nat → Nat)
    {tiles : List Tile} (hInv : InvT rows cols tiles (rows - 1, cols - 1)) :
    InvT rows cols (shuffleTiles rows cols rand tiles).1
      (shuffleTiles rows cols rand tiles).2 := by
  unfold shuffleTiles
  exact foldl_preserves (fun st => InvT rows cols st.1 st.2)
    (fun st i => shuffleStep rows cols (rand i) st)
    (fun st i h => shuffleStep_invT h) (List.range (numMoves rows cols))
    (tiles, (rows - 1, cols - 1)) hInv

theorem tryMove_rejected {rows cols : Nat} {s : PuzzleState} {pos : ℤ × ℤ}
    {now : ℚ}
    (h : s.solved = true ∨
      ¬(0 ≤ pos.1 ∧ pos.1 < (rows : ℤ) ∧ 0 ≤ pos.2 ∧ pos.2 < (cols : ℤ)) ∨
      ((s.emptyPos.1 : ℤ) - pos.1).natAbs +
          ((s.emptyPos.2 : ℤ) - pos.2).natAbs ≠ 1) :
    tryMove rows cols s pos now = (s, none) := by
  rcases h with h | h | h
  · simp [tryMove, h]
  · by_cases hs : s.solved <;> simp [tryMove, hs, h]
  · by_cases hs : s.solved
    · simp [tryMove, hs]
    · by_cases hb : 0 ≤ pos.1 ∧ pos.1 < (rows : ℤ) ∧ 0 ≤ pos.2 ∧ pos.2 < (cols : ℤ) <;>
        simp [tryMove, hs, hb, h]

theorem tryMove_accepted {rows cols : Nat} {s : PuzzleState} {pos : ℤ × ℤ}
    {now : ℚ} (h1 : s.solved = false)
    (h2 : 0 ≤ pos.1 ∧ pos.1 < (rows : ℤ) ∧ 0 ≤ pos.2 ∧ pos.2 < (cols : ℤ))
    (h3 : ((s.emptyPos.1 : ℤ) - pos.1).natAbs +
        ((s.emptyPos.2 : ℤ) - pos.2).natAbs = 1) :
    tryMove rows cols s pos now =
      (if isSolved rows cols (applyAccepted cols s pos.1.toNat pos.2.toNat now).tiles then
        ({ applyAccepted cols s pos.1.toNat pos.2.toNat now with solved := true },
          some (now - (applyAccepted cols s pos.1.toNat pos.2.toNat now).startTime.getD 0))
      else (applyAccepted cols s pos.1.toNat pos.2.toNat now, none)) := by
  simp [tryMove, h1, h2, h3]

theorem tryMove_invT {rows cols : Nat} {s : PuzzleState} {pos : ℤ × ℤ}
    {now : ℚ} (hInv : InvT rows cols s.tiles s.emptyPos) :
    InvT rows cols (tryMove rows cols s pos now).1.tiles
      (tryMove rows cols s pos now).1.emptyPos := by
  by_cases hs : s.solved
  · rw [tryMove_rejected (Or.inl hs)]; exact hInv
  · by_cases hb : 0 ≤ pos.1 ∧ pos.1 < (rows : ℤ) ∧ 0 ≤ pos.2 ∧ pos.2 < (cols : ℤ)
    · by_cases hd : ((s.emptyPos.1 : ℤ) - pos.1).natAbs +
          ((s.emptyPos.2 : ℤ) - pos.2).natAbs = 1
      · rw [tryMove_accepted (Bool.eq_false_iff.mpr hs ▸ rfl) hb hd]
        have ht1 : pos.1.toNat < rows := by omega
        have ht2 : pos.2.toNat < cols := by omega
        have hne : (pos.1.toNat, pos.2.toNat) ≠ s.emptyPos := by
          intro heq
          have e1 := congrArg Prod.fst heq
          have e2 := congrArg Prod.snd heq
          simp only [] at e1 e2
          omega
        have hsw := swap_invT hInv ht1 ht2 hne
        by_cases hsol :
            isSolved rows cols (applyAccepted cols s pos.1.toNat pos.2.toNat now).tiles = true
        · rw [if_pos hsol]
          simpa [applyAccepted, pidx] using hsw
        · rw [if_neg hsol]
          simpa [applyAccepted, pidx] using hsw
      · rw [tryMove_rejected (Or.inr (Or.inr hd))]; exact hInv
    · rw [tryMove_rejected (Or.inr (Or.inl hb))]; exact hInv

/-! ### Legal single-tile moves and reachability -/

theorem moveRel_invT {rows cols : Nat} {a b : List Tile × (Nat × Nat)}
    (hInv : InvT rows cols a.1 a.2) (h : MoveRel rows cols a b) :
    InvT rows cols b.1 b.2 := by
  obtain ⟨mv, h1, h2, hd, rfl⟩ := h
  have hne : mv ≠ a.2 := by
    intro heq
    rw [heq] at hd
    omega
  exact swap_invT hInv h1 h2 hne

theorem shuffleStep_moveRel {rows cols pick : Nat}
    {st : List Tile × (Nat × Nat)} (h2r : 2 ≤ rows)
    (hInv : InvT rows cols st.1 st.2) :
    MoveRel rows cols st (shuffleStep rows cols pick st) := by
  have hne : possibleMoves rows cols st.2 ≠ [] := by
    intro h
    have her := hInv.2.1
    rcases Nat.eq_zero_or_pos st.2.1 with h0 | h0
    · have hlt : st.2.1 < rows - 1 := by omega
      have hm : (st.2.1 + 1, st.2.2) ∈ possibleMoves rows cols st.2 := by
        simp [possibleMoves, hlt]
      rw [h] at hm
      simp at hm
    · have hm : (st.2.1 - 1, st.2.2) ∈ possibleMoves rows cols st.2 := by
        simp [possibleMoves, h0]
      rw [h] at hm
      simp at hm
  have hem : (possibleMoves rows cols st.2).isEmpty = false := by
    simpa [List.isEmpty_eq_false] using hne
  have hlenpos : 0 < (possibleMoves rows cols st.2).length :=
    List.length_pos.mpr hne
  have hmem :
      (possibleMoves rows cols st.2).getD
          (pick % (possibleMoves rows cols st.2).length) (0, 0)
        ∈ possibleMoves rows cols st.2 := by
    have hlt := Nat.mod_lt pick hlenpos
    rw [List.getD_eq_getElem?_getD, List.getElem?_eq_getElem hlt]
    exact List.getElem_mem hlt
  obtain ⟨hh1, hh2, _, hd⟩ := possibleMoves_spec hInv.2.1 hInv.2.2.1 hmem
  refine ⟨_, hh1, hh2, hd, ?_⟩
  simp [shuffleStep, hem]

theorem moveRel_symm {rows cols : Nat} {a b : List Tile × (Nat × Nat)}
    (hInv : InvT rows cols a.1 a.2) (h : MoveRel rows cols a b) :
    MoveRel rows cols b a := by
  obtain ⟨mv, h1, h2, hd, rfl⟩ := h
  obtain ⟨hperm, her, hec, hget⟩ := hInv
  have hlen : a.1.length = rows * cols :=
    hperm.length_eq.trans (createTiles_length rows cols)
  have helt : pidx cols a.2 < a.1.length := by
    rw [hlen]; exact pidx_lt her hec
  have hmlt : pidx cols mv < a.1.length := by
    rw [hlen]; exact pidx_lt h1 h2
  have hne : mv ≠ a.2 := by
    intro heq
    rw [heq] at hd
    omega
  have hidx : pidx cols mv ≠ pidx cols a.2 := fun h => hne (pidx_inj h2 hec h)
  obtain ⟨x, hx⟩ : ∃ x, a.1[pidx cols mv]? = some x :=
    ⟨_, List.getElem?_eq_getElem hmlt⟩
  have hgd : a.1.getD (pidx cols mv) none = x := by
    simp [List.getD_eq_getElem?_getD, hx]
  refine ⟨a.2, her, hec, by simp <;> omega, ?_⟩
  have hbe :
      ((a.1.set (pidx cols a.2) x).set (pidx cols mv) none).getD
          (pidx cols a.2) none = x := by
    rw [List.getD_eq_getElem?_getD, List.getElem?_set_ne hidx,
      List.getElem?_set_self helt]
    rfl
  have hrev :
      ((((a.1.set (pidx cols a.2) x).set (pidx cols mv) none).set
          (pidx cols mv) x).set (pidx cols a.2) none) = a.1 := by
    rw [List.set_set]
    have h5 : (a.1.set (pidx cols a.2) x).set (pidx cols mv) x =
        a.1.set (pidx cols a.2) x := by
      apply set_of_getElem?
      rw [List.getElem?_set_ne (Ne.symm hidx)]
      exact hx
    rw [h5, List.set_set]
    exact set_of_getElem? hget
  rw [hgd, hbe, hrev]

theorem shuffle_chain {rows cols : Nat} (h2r : 2 ≤ rows) (rand : Nat → Nat) :
    ∀ (l : List Nat) (st : List Tile × (Nat × Nat)),
      InvT rows cols st.1 st.2 →
      Relation.ReflTransGen (MoveRel rows cols) st
        (l.foldl (fun s i => shuffleStep rows cols (rand i) s) st)
  | [], _, _ => .refl
  | i :: l, st, h =>
      (Relation.ReflTransGen.single (shuffleStep_moveRel h2r h)).trans
        (shuffle_chain h2r rand l (shuffleStep rows cols (rand i) st)
          (shuffleStep_invT h))

theorem rtg_moveRel_reverse {rows cols : Nat} {a b : List Tile × (Nat × Nat)}
    (h : Relation.ReflTransGen (MoveRel rows cols) a b)
    (ha : InvT rows cols a.1 a.2) :
    InvT rows cols b.1 b.2 ∧ Relation.ReflTransGen (MoveRel rows cols) b a := by
  induction h with
  | refl => exact ⟨ha, .refl⟩
  | tail hac hcb ih =>
      obtain ⟨hc, hca⟩ := ih
      exact ⟨moveRel_invT hc hcb, Relation.ReflTransGen.head
        (moveRel_symm hc hcb) hca⟩

/-! ### Concrete facts about the identity layout, for valid grid sizes -/

theorem createTiles_bottom {rows cols : Nat} (h3r : 3 ≤ rows) (hr8 : rows ≤ 8)
    (h3c : 3 ≤ cols) (hc8 : cols ≤ 8) :
    (createTiles rows cols)[pidx cols (rows - 1, cols - 1)]? = some none := by
  interval_cases rows <;> interval_cases cols <;> decide

theorem createTiles_count {rows cols : Nat} (h3r : 3 ≤ rows) (hr8 : rows ≤ 8)
    (h3c : 3 ≤ cols) (hc8 : cols ≤ 8) :
    (createTiles rows cols).count none = 1 := by
  interval_cases rows <;> interval_cases cols <;> decide

theorem initState_invT {rows cols : Nat} (h3r : 3 ≤ rows) (hr8 : rows ≤ 8)
    (h3c : 3 ≤ cols) (hc8 : cols ≤ 8) :
    InvT rows cols (initState rows cols).tiles (initState rows cols).emptyPos :=
  ⟨List.Perm.refl _, Nat.sub_lt (by omega) Nat.one_pos,
    Nat.sub_lt (by omega) Nat.one_pos, createTiles_bottom h3r hr8 h3c hc8⟩

/-- C1: for every valid grid, the layout produced by `_shuffle_tiles` is
reachable from the identity layout by a finite sequence of legal
single-tile moves (each step swaps the empty slot with an in-bounds
orthogonal neighbour), and a finite sequence of legal moves returns the
shuffled layout to the identity layout. -/
theorem shuffled_layout_reachable_and_returnable (rows cols : Nat)
    (rand : Nat → Nat) (h3r : 3 ≤ rows) (hr8 : rows ≤ 8) (h3c : 3 ≤ cols)
    (hc8 : cols ≤ 8) :
    Relation.ReflTransGen (MoveRel rows cols)
        (createTiles rows cols, (rows - 1, cols - 1))
        (shuffleTiles rows cols rand (createTiles rows cols)) ∧
      Relation.ReflTransGen (MoveRel rows cols)
        (shuffleTiles rows cols rand (createTiles rows cols))
        (createTiles rows cols, (rows - 1, cols - 1)) := by
  have hInv0 : InvT rows cols (createTiles rows cols) (rows - 1, cols - 1) :=
    initState_invT h3r hr8 h3c hc8
  have hfwd := @shuffle_chain rows cols (by omega) rand
    (List.range (numMoves rows cols)) (createTiles rows cols, (rows - 1, cols - 1))
    hInv0
  exact ⟨hfwd, (rtg_moveRel_reverse hfwd hInv0).2⟩

/-- Witness for C1 at a concrete valid grid and shuffle oracle. -/
theorem shuffled_layout_reachable_and_returnable_witness :
    (3 ≤ 3 ∧ 3 ≤ 8) ∧
      Relation.ReflTransGen (MoveRel 3 3)
        (shuffleTiles 3 3 (fun _ => 0) (createTiles 3 3))
        (createTiles 3 3, (3 - 1, 3 - 1)) :=
  ⟨⟨by decide, by decide⟩,
    (shuffled_layout_reachable_and_returnable 3 3 (fun _ => 0) (by decide)
      (by decide) (by decide) (by decide)).2⟩

theorem invT_invFull {rows cols : Nat} {tiles : List Tile} {ep : Nat × Nat}
    (h3r : 3 ≤ rows) (hr8 : rows ≤ 8) (h3c : 3 ≤ cols) (hc8 : cols ≤ 8)
    (h : InvT rows cols tiles ep) : InvFull rows cols tiles ep :=
  ⟨by
    rw [List.count_eq_countP, h.1.countP_eq, ← List.count_eq_countP]
    exact createTiles_count h3r hr8 h3c hc8, h⟩

/-- C4: the layout invariant (exactly one empty marker, origin coordinates
forming the full grid minus the bottom-right coordinate, i.e. a permutation
of the identity multiset, and a cached empty position that matches the slot
holding the empty marker) holds after construction, is preserved by every
shuffle step, holds for the fully constructed shuffled game, and is
preserved by every `_try_move` call (accepted or rejected). -/
theorem layout_invariant_maintained (rows cols : Nat) (h3r : 3 ≤ rows)
    (hr8 : rows ≤ 8) (h3c : 3 ≤ cols) (hc8 : cols ≤ 8) :
    InvFull rows cols (initState rows cols).tiles (initState rows cols).emptyPos ∧
    (∀ (pick : Nat) (tiles : List Tile) (ep : Nat × Nat),
      InvFull rows cols tiles ep →
      InvFull rows cols (shuffleStep rows cols pick (tiles, ep)).1
        (shuffleStep rows cols pick (tiles, ep)).2) ∧
    (∀ rand : Nat → Nat,
      InvFull rows cols (newGame rows cols rand).tiles
        (newGame rows cols rand).emptyPos) ∧
    (∀ (s : PuzzleState) (pos : ℤ × ℤ) (now : ℚ),
      InvFull rows cols s.tiles s.emptyPos →
      InvFull rows cols (tryMove rows cols s pos now).1.tiles
        (tryMove rows cols s pos now).1.emptyPos) := by
  refine ⟨invT_invFull h3r hr8 h3c hc8 (initState_invT h3r hr8 h3c hc8),
    ?_, ?_, ?_⟩
  · intro pick tiles ep h
    exact invT_invFull h3r hr8 h3c hc8 (shuffleStep_invT h.2)
  · intro rand
    exact invT_invFull h3r hr8 h3c hc8
      (shuffleTiles_invT rand (initState_invT h3r hr8 h3c hc8))
  · intro s pos now h
    exact invT_invFull h3r hr8 h3c hc8 (tryMove_invT h.2)

/-- Witness for C4 at a concrete grid, shuffle step, game and move. -/
theorem layout_invariant_maintained_witness :
    (3 ≤ 4 ∧ 4 ≤ 8) ∧
      InvFull 4 4 (initState 4 4).tiles (initState 4 4).emptyPos :=
  ⟨⟨by decide, by decide⟩,
    (layout_invariant_maintained 4 4 (by decide) (by decide) (by decide)
      (by decide)).1⟩

/-! ### Solved detection -/

theorem checkFrom_iff (rows cols : Nat) :
    ∀ (ts : List Tile) (k : Nat),
      checkFrom rows cols k ts = true ↔
        ∀ (j : Nat) (t : Tile), ts[j]? = some t →
          slotOK rows cols (k + j) t = true
  | [], k => by simp [checkFrom]
  | t :: ts, k => by
    rw [checkFrom, Bool.and_eq_true, checkFrom_iff rows cols ts (k + 1)]
    constructor
    · rintro ⟨h0, hrest⟩ j t' hj
      cases j with
      | zero =>
        simp at hj
        rw [← hj, Nat.add_zero]
        exact h0
      | succ j' =>
        simp only [List.getElem?_cons_succ] at hj
        have := hrest j' t' hj
        rwa [Nat.add_assoc, Nat.add_comm 1 j'] at this
    · intro h
      refine ⟨?_, ?_⟩
      · have := h 0 t (by simp)
        rwa [Nat.add_zero] at this
      · intro j t' hj
        have hs := h (j + 1) t' (by simpa using hj)
        have heq : k + 1 + j = k + (j + 1) := by omega
        rwa [heq]

theorem terminal_divmod {rows cols : Nat} (hr : 0 < rows) (hc : 0 < cols) :
    (rows * cols - 1) / cols = rows - 1 ∧
      (rows * cols - 1) % cols = cols - 1 := by
  obtain ⟨r, rfl⟩ : ∃ r, rows = r + 1 := ⟨rows - 1, by omega⟩
  obtain ⟨c, rfl⟩ : ∃ c, cols = c + 1 := ⟨cols - 1, by omega⟩
  have h1 : (r + 1) * (c + 1) - 1 = (c + 1) * r + c := by
    have h : (r + 1) * (c + 1) = r * (c + 1) + (c + 1) := Nat.succ_mul r (c + 1)
    have h2 : r * (c + 1) = (c + 1) * r := Nat.mul_comm r (c + 1)
    omega
  rw [h1]
  constructor
  · rw [Nat.mul_add_div (by omega), Nat.div_eq_of_lt (by omega)]
    omega
  · rw [Nat.mul_add_mod, Nat.mod_eq_of_lt (by omega)]
    omega

theorem divmod_terminal {rows cols i : Nat} (hr : 0 < rows) (hc : 0 < cols)
    (hdiv : i / cols = rows - 1) (hmod : i % cols = cols - 1) :
    i = rows * cols - 1 := by
  obtain ⟨r, rfl⟩ : ∃ r, rows = r + 1 := ⟨rows - 1, by omega⟩
  obtain ⟨c, rfl⟩ : ∃ c, cols = c + 1 := ⟨cols - 1, by omega⟩
  have hdm := Nat.div_add_mod i (c + 1)
  have h1 : (r + 1) * (c + 1) = r * (c + 1) + (c + 1) := Nat.succ_mul r (c + 1)
  have h2 : r * (c + 1) = (c + 1) * r := Nat.mul_comm r (c + 1)
  simp only [Nat.add_sub_cancel] at hdiv hmod
  rw [hdiv, hmod] at hdm
  omega

/-- C2: on every layout of the data model (a list of `rows * cols` slots
containing an empty marker), `_is_solved` returns true if and only if each
slot is empty exactly when its index is the terminal index
`rows * cols - 1` (the bottom-right cell) and every non-empty slot `i`
holds the origin coordinate `divmod(i, cols)`. -/
theorem isSolved_iff_slots (rows cols : Nat) (tiles : List Tile)
    (hr : 0 < rows) (hc : 0 < cols) (hlen : tiles.length = rows * cols)
    (hmem : none ∈ tiles) :
    isSolved rows cols tiles = true ↔
      ∀ i, i < rows * cols →
        (tiles[i]? = some none ↔ i = rows * cols - 1) ∧
        (∀ p : Nat × Nat, tiles[i]? = some (some p) →
          p = (i / cols, i % cols)) := by
  rw [isSolved, checkFrom_iff]
  constructor
  · intro h i hi
    refine ⟨⟨?_, ?_⟩, ?_⟩
    · intro hnone
      have hs := h i none (by simpa using hnone)
      rw [Nat.zero_add] at hs
      simp only [slotOK, decide_eq_true_eq] at hs
      exact divmod_terminal hr hc hs.1 hs.2
    · intro hterm
      obtain ⟨j, hj⟩ := List.mem_iff_getElem?.mp hmem
      have hs := h j none (by simpa using hj)
      rw [Nat.zero_add] at hs
      simp only [slotOK, decide_eq_true_eq] at hs
      have hjt : j = rows * cols - 1 := divmod_terminal hr hc hs.1 hs.2
      rw [hterm, ← hjt]
      exact hj
    · intro p hp
      have hs := h i (some p) hp
      rw [Nat.zero_add] at hs
      simpa [slotOK] using hs
  · intro h j t hj
    have hjlt : j < rows * cols := by
      rw [← hlen]
      exact List.getElem?_eq_some_iff.mp hj |>.1
    rw [Nat.zero_add]
    obtain ⟨hempty, htile⟩ := h j hjlt
    cases t with
    | none =>
      have hjt : j = rows * cols - 1 := hempty.mp hj
      obtain ⟨hd, hm⟩ := terminal_divmod hr hc
      subst hjt
      simp [slotOK, hd, hm]
    | some p =>
      have := htile p hj
      simp [slotOK, this]

/-- Witness for C2 at a concrete grid and layout. -/
theorem isSolved_iff_slots_witness :
    (0 < 3 ∧ (createTiles 3 3).length = 3 * 3 ∧ none ∈ createTiles 3 3) ∧
      (isSolved 3 3 (createTiles 3 3) = true ↔
        ∀ i, i < 3 * 3 →
          ((createTiles 3 3)[i]? = some none ↔ i = 3 * 3 - 1) ∧
          (∀ p : Nat × Nat, (createTiles 3 3)[i]? = some (some p) →
            p = (i / 3, i % 3))) :=
  ⟨⟨by decide, by decide, by decide⟩,
    isSolved_iff_slots 3 3 (createTiles 3 3) (by decide) (by decide)
      (by decide) (by decide)⟩

/-- C8: for every valid grid size, `_create_tiles` builds the identity
layout (slot `i` holds origin coordinate `divmod(i, cols)` except the
terminal bottom-right slot, which holds the empty marker), the cached empty
position is `(rows - 1, cols - 1)`, the session is not started (start time
unset, not solved), and `_is_solved` is true on that layout. -/
theorem construction_identity_and_solved (rows cols : Nat) (h3r : 3 ≤ rows)
    (hr8 : rows ≤ 8) (h3c : 3 ≤ cols) (hc8 : cols ≤ 8) :
    (∀ i, i < rows * cols →
      (initState rows cols).tiles[i]? =
        some (if i = rows * cols - 1 then none else some (i / cols, i % cols))) ∧
    (initState rows cols).emptyPos = (rows - 1, cols - 1) ∧
    (initState rows cols).startTime = none ∧
    (initState rows cols).solved = false ∧
    sessionState (initState rows cols) = SessionState.notStarted ∧
    isSolved rows cols (initState rows cols).tiles = true := by
  refine ⟨?_, rfl, rfl, rfl, rfl, ?_⟩ <;>
    · show _
      interval_cases rows <;> interval_cases cols <;> decide

/-- Witness for C8 at the concrete 3 by 3 grid. -/
theorem construction_identity_and_solved_witness :
    (3 ≤ 3 ∧ 3 ≤ 8) ∧
      sessionState (initState 3 3) = SessionState.notStarted ∧
      isSolved 3 3 (initState 3 3).tiles = true :=
  ⟨⟨by decide, by decide⟩,
    (construction_identity_and_solved 3 3 (by decide) (by decide) (by decide)
        (by decide)).2.2.2.2.1,
    (construction_identity_and_solved 3 3 (by decide) (by decide) (by decide)
        (by decide)).2.2.2.2.2⟩

/-- C3: `_try_move` is a no-op — the state (tiles, empty position, start
time, solved flag) is returned unchanged and no outcome is emitted —
whenever the session is already solved, or the target lies outside the grid
bounds, or the target is not at Manhattan distance exactly 1 from the
current empty position; for every state and every such target. -/
theorem tryMove_noop_when_rejected (rows cols : Nat) (s : PuzzleState)
    (pos : ℤ × ℤ) (now : ℚ)
    (h : s.solved = true ∨
      ¬(0 ≤ pos.1 ∧ pos.1 < (rows : ℤ) ∧ 0 ≤ pos.2 ∧ pos.2 < (cols : ℤ)) ∨
      ((s.emptyPos.1 : ℤ) - pos.1).natAbs +
          ((s.emptyPos.2 : ℤ) - pos.2).natAbs ≠ 1) :
    tryMove rows cols s pos now = (s, none) :=
  tryMove_rejected h

/-- Witness for C3: an out-of-bounds click on a fresh 3 by 3 session is a
no-op, as is a non-adjacent in-bounds click. -/
theorem tryMove_noop_when_rejected_witness :
    (¬(0 ≤ (5 : ℤ) ∧ (5 : ℤ) < ((3 : Nat) : ℤ) ∧ 0 ≤ (5 : ℤ) ∧
        (5 : ℤ) < ((3 : Nat) : ℤ)) ∧
      ((((initState 3 3).emptyPos.1 : ℤ) - 0).natAbs +
          (((initState 3 3).emptyPos.2 : ℤ) - 0).natAbs ≠ 1)) ∧
    tryMove 3 3 (initState 3 3) (5, 5) 0 = (initState 3 3, none) ∧
    tryMove 3 3 (initState 3 3) (0, 0) 0 = (initState 3 3, none) :=
  ⟨⟨by decide, by decide⟩,
    tryMove_noop_when_rejected 3 3 (initState 3 3) (5, 5) 0
      (Or.inr (Or.inl (by decide))),
    tryMove_noop_when_rejected 3 3 (initState 3 3) (0, 0) 0
      (Or.inr (Or.inr (by decide)))⟩

/-- C6: the start time is unset in a freshly constructed session (whose
session state is "not started"); a rejected move attempt never changes the
start time; the first accepted move stamps the start time with the current
instant and puts the session in the "running" state; and once the start
time is set, any further call (accepted or not) leaves it unchanged. -/
theorem start_time_first_accepted_move_only :
    (∀ (rows cols : Nat) (rand : Nat → Nat),
      (newGame rows cols rand).startTime = none ∧
      sessionState (newGame rows cols rand) = SessionState.notStarted) ∧
    (∀ (rows cols : Nat) (s : PuzzleState) (pos : ℤ × ℤ) (now : ℚ),
      (s.solved = true ∨
        ¬(0 ≤ pos.1 ∧ pos.1 < (rows : ℤ) ∧ 0 ≤ pos.2 ∧ pos.2 < (cols : ℤ)) ∨
        ((s.emptyPos.1 : ℤ) - pos.1).natAbs +
            ((s.emptyPos.2 : ℤ) - pos.2).natAbs ≠ 1) →
      (tryMove rows cols s pos now).1.startTime = s.startTime) ∧
    (∀ (rows cols : Nat) (s : PuzzleState) (pos : ℤ × ℤ) (now : ℚ),
      s.solved = false → s.startTime = none →
      (0 ≤ pos.1 ∧ pos.1 < (rows : ℤ) ∧ 0 ≤ pos.2 ∧ pos.2 < (cols : ℤ)) →
      ((s.emptyPos.1 : ℤ) - pos.1).natAbs +
          ((s.emptyPos.2 : ℤ) - pos.2).natAbs = 1 →
      (tryMove rows cols s pos now).1.startTime = some now ∧
      sessionState (applyAccepted cols s pos.1.toNat pos.2.toNat now) =
        SessionState.running) ∧
    (∀ (rows cols : Nat) (s : PuzzleState) (pos : ℤ × ℤ) (now t0 : ℚ),
      s.startTime = some t0 →
      (tryMove rows cols s pos now).1.startTime = some t0) := by
  refine ⟨?_, ?_, ?_, ?_⟩
  · intro rows cols rand
    exact ⟨rfl, rfl⟩
  · intro rows cols s pos now h
    rw [tryMove_rejected h]
  · intro rows cols s pos now h1 hstart hb hd
    rw [tryMove_accepted h1 hb hd]
    constructor
    · by_cases hsol :
          isSolved rows cols (applyAccepted cols s pos.1.toNat pos.2.toNat now).tiles = true
      · rw [if_pos hsol]
        simp [applyAccepted, hstart]
      · rw [if_neg hsol]
        simp [applyAccepted, hstart]
    · simp [sessionState, applyAccepted, h1]
  · intro rows cols s pos now t0 hst
    by_cases hs : s.solved = true
    · rw [tryMove_rejected (Or.inl hs)]
      exact hst
    · by_cases hb : 0 ≤ pos.1 ∧ pos.1 < (rows : ℤ) ∧ 0 ≤ pos.2 ∧ pos.2 < (cols : ℤ)
      · by_cases hd : ((s.emptyPos.1 : ℤ) - pos.1).natAbs +
            ((s.emptyPos.2 : ℤ) - pos.2).natAbs = 1
        · rw [tryMove_accepted (Bool.eq_false_iff.mpr hs ▸ rfl) hb hd]
          by_cases hsol :
              isSolved rows cols (applyAccepted cols s pos.1.toNat pos.2.toNat now).tiles = true
          · rw [if_pos hsol]
            simp [applyAccepted, hst]
          · rw [if_neg hsol]
            simp [applyAccepted, hst]
        · rw [tryMove_rejected (Or.inr (Or.inr hd))]
          exact hst
      · rw [tryMove_rejected (Or.inr (Or.inl hb))]
        exact hst

/-- Witness for C6: on a fresh 3 by 3 identity-layout session the first
accepted move (target (2,1), adjacent to the empty slot (2,2)) stamps the
start time with the move's instant; with a start time already set, another
accepted move leaves it unchanged. -/
theorem start_time_first_accepted_move_only_witness :
    ((initState 3 3).solved = false ∧ (initState 3 3).startTime = none ∧
      (((initState 3 3).emptyPos.1 : ℤ) - 2).natAbs +
          (((initState 3 3).emptyPos.2 : ℤ) - 1).natAbs = 1) ∧
    (tryMove 3 3 (initState 3 3) (2, 1) 7).1.startTime = some 7 ∧
    (tryMove 3 3 { initState 3 3 with startTime := some 5 } (2, 1) 7).1.startTime
      = some 5 :=
  ⟨⟨by decide, by decide, by decide⟩,
    (start_time_first_accepted_move_only.2.2.1 3 3 (initState 3 3) (2, 1) 7
      (by decide) (by decide) (by decide) (by decide)).1,
    start_time_first_accepted_move_only.2.2.2 3 3
      { initState 3 3 with startTime := some 5 } (2, 1) 7 5 rfl⟩

/-- C9 counterexample: the claim says pressing "down" targets the tile
below the empty slot, cell `(er + 1, ec)`.  With the empty slot at (1, 1),
`_on_key` maps "Down" to (0, 1) — the cell above the empty slot — not to
(2, 1) as the claim states. -/
theorem keyTarget_down_claim_counterexample :
    keyTarget (1, 1) ArrowKey.down = ((0 : ℤ), (1 : ℤ)) ∧
    keyTarget (1, 1) ArrowKey.down ≠ (((1 : Nat) : ℤ) + 1, ((1 : Nat) : ℤ)) :=
  ⟨by decide, by decide⟩

/-- C9 amended: a direction key press targets the in-grid neighbour of the
empty position on the side opposite the arrow, so the targeted tile slides
in the arrow's direction: "down" targets `(er - 1, ec)` (the tile above the
empty slot, which moves down into it), "up" targets `(er + 1, ec)`, "left"
targets `(er, ec + 1)` and "right" targets `(er, ec - 1)`; the key handler
passes exactly that target to `_try_move`. -/
theorem keyTarget_opposite_of_arrow :
    (∀ ep : Nat × Nat,
      keyTarget ep ArrowKey.down = ((ep.1 : ℤ) - 1, (ep.2 : ℤ)) ∧
      keyTarget ep ArrowKey.up = ((ep.1 : ℤ) + 1, (ep.2 : ℤ)) ∧
      keyTarget ep ArrowKey.left = ((ep.1 : ℤ), (ep.2 : ℤ) + 1) ∧
      keyTarget ep ArrowKey.right = ((ep.1 : ℤ), (ep.2 : ℤ) - 1)) ∧
    (∀ (rows cols : Nat) (s : PuzzleState) (k : ArrowKey) (now : ℚ),
      onKey rows cols s k now =
        tryMove rows cols s (keyTarget s.emptyPos k) now) :=
  ⟨fun _ => ⟨rfl, rfl, rfl, rfl⟩, fun _ _ _ _ _ => rfl⟩

/-! ### Leaderboard store -/

theorem dictGet_dictSet_self (d : Store) (k : String) (v : List Entry) :
    dictGet (dictSet d k v) k = v := by
  induction d with
  | nil => simp [dictGet, dictSet]
  | cons p rest ih =>
    by_cases h : p.1 = k
    · simp [dictGet, dictSet, h]
    · simp [dictGet, dictSet, h, ih]

theorem dictGet_dictSet_ne (d : Store) (k k' : String) (v : List Entry)
    (h : k' ≠ k) : dictGet (dictSet d k v) k' = dictGet d k' := by
  have hne : ¬k = k' := fun he => h he.symm
  induction d with
  | nil => simp [dictGet, dictSet, hne]
  | cons p rest ih =>
    by_cases hp : p.1 = k
    · simp [dictGet, dictSet, hp, hne]
    · simp [dictGet, dictSet, hp, ih]

/-- C10: `Leaderboard.record` leaves the entry list persisted under every
other size-key unchanged, even though it rewrites the whole mapping. -/
theorem record_preserves_other_size_keys (d : Store) (rows cols : Nat)
    (t : ℚ) (ini : String) (k : String) (hk : k ≠ sizeKey rows cols) :
    dictGet (record d rows cols t ini) k = dictGet d k :=
  dictGet_dictSet_ne d (sizeKey rows cols) k _ hk

/-- Witness for C10: recording a 3 by 3 score does not disturb the list
stored under the 4 by 4 key. -/
theorem record_preserves_other_size_keys_witness :
    ("4x4" ≠ sizeKey 3 3) ∧
      dictGet
          (record [("4x4", [{ initials := "ZZ", time := 9 }])] 3 3 (3 / 2) "AB")
          "4x4"
        = dictGet [("4x4", [{ initials := "ZZ", time := 9 }])] "4x4" :=
  ⟨by decide,
    record_preserves_other_size_keys
      [("4x4", [{ initials := "ZZ", time := 9 }])] 3 3 (3 / 2) "AB" "4x4"
      (by decide)⟩

/-- C7 counterexample: a backing file holding well-formed JSON that is not
the leaderboard mapping (for example the array `[1, 2]`, or a mapping with
a numeric value) is content that fails to parse as the valid structured
leaderboard mapping, yet — since `Leaderboard.record` catches only
`json.JSONDecodeError` — the record propagates an uncaught
`AttributeError`/`TypeError` instead of degrading to the empty mapping and
proceeding as on an empty store. -/
theorem record_wrong_shape_propagates_failure :
    loadData FileState.wrongShape ≠ LoadedData.mapping [] ∧
    recordFile FileState.wrongShape 3 3 2 "AB" = Except.error () ∧
    recordFile FileState.wrongShape 3 3 2 "AB" ≠
      Except.ok (record [] 3 3 2 "AB") :=
  ⟨fun h => LoadedData.noConfusion h, rfl, fun h => Except.noConfusion h⟩

/-- C7 amended: when the backing file is absent, empty, or rejected by the
JSON parser (a `json.JSONDecodeError`, the only failure the load phase of
`Leaderboard.record` catches), loading yields the empty mapping, that
failure never propagates to the caller, and the record proceeds exactly as
on an empty store.  A file holding well-formed JSON of a different shape is
not recovered. -/
theorem load_degrades_to_empty_on_syntax_failure (fs : FileState)
    (rows cols : Nat) (t : ℚ) (ini : String)
    (h : fs = FileState.absent ∨ fs = FileState.empty ∨
      fs = FileState.unparsable) :
    loadData fs = LoadedData.mapping [] ∧
      recordFile fs rows cols t ini = Except.ok (record [] rows cols t ini) := by
  rcases h with rfl | rfl | rfl <;> exact ⟨rfl, rfl⟩

/-- Witness for the amended C7 on a concrete unparsable backing file. -/
theorem load_degrades_to_empty_on_syntax_failure_witness :
    (FileState.unparsable = FileState.absent ∨
      FileState.unparsable = FileState.empty ∨
      FileState.unparsable = FileState.unparsable) ∧
    loadData FileState.unparsable = LoadedData.mapping [] ∧
    recordFile FileState.unparsable 4 4 (5 / 2) "AB" =
      Except.ok (record [] 4 4 (5 / 2) "AB") :=
  ⟨Or.inr (Or.inr rfl),
    (load_degrades_to_empty_on_syntax_failure FileState.unparsable 4 4 (5 / 2)
      "AB" (Or.inr (Or.inr rfl))).1,
    (load_degrades_to_empty_on_syntax_failure FileState.unparsable 4 4 (5 / 2)
      "AB" (Or.inr (Or.inr rfl))).2⟩

theorem round_of_tie {x : ℚ} (h : x - ⌊x⌋ = 1 / 2) : round x = ⌊x⌋ + 1 := by
  rw [round_eq]
  have hx : x + 1 / 2 = ((⌊x⌋ + 1 : ℤ) : ℚ) := by push_cast; linarith
  rw [hx, Int.floor_intCast]

theorem pyRound_le_round (x : ℚ) : pyRound x ≤ round x := by
  unfold pyRound
  split_ifs with h1 h2
  · rw [round_of_tie h1]; omega
  · rw [round_of_tie h1]
  · exact le_refl _

theorem floor_le_pyRound (x : ℚ) : ⌊x⌋ ≤ pyRound x := by
  unfold pyRound
  split_ifs with h1 h2
  · exact le_refl _
  · omega
  · rw [round_eq]
    exact Int.floor_mono (by linarith)

/-- Python's integer rounding is monotone. -/
theorem pyRound_mono {a b : ℚ} (h : a ≤ b) : pyRound a ≤ pyRound b := by
  rcases eq_or_lt_of_le h with rfl | hlt
  · exact le_refl _
  by_cases hb : b - ⌊b⌋ = 1 / 2 ∧ 2 ∣ ⌊b⌋
  · have hpb : pyRound b = ⌊b⌋ := by
      unfold pyRound
      rw [if_pos hb.1, if_pos hb.2]
    rw [hpb]
    refine le_trans (pyRound_le_round a) ?_
    rw [round_eq]
    have hb2 : b = (⌊b⌋ : ℚ) + 1 / 2 := by linarith [hb.1]
    have hflt : ⌊a + 1 / 2⌋ < ⌊b⌋ + 1 := by
      rw [show ((⌊b⌋ + 1 : ℤ)) = ((⌊b⌋ + 1 : ℤ)) from rfl] at *
      exact Int.floor_lt.mpr (by push_cast; linarith)
    omega
  · have hpb : pyRound b = round b := by
      unfold pyRound
      split_ifs with h1 h2
      · exact absurd ⟨h1, h2⟩ hb
      · rw [round_of_tie h1]
      · rfl
    rw [hpb]
    refine le_trans (pyRound_le_round a) ?_
    rw [round_eq, round_eq]
    exact Int.floor_mono (by linarith)

/-- Rounding to two decimals is monotone. -/
theorem round2_mono {a b : ℚ} (h : a ≤ b) : round2 a ≤ round2 b := by
  unfold round2
  have h2 := pyRound_mono (by linarith : a * 100 ≤ b * 100)
  have hcast : ((pyRound (a * 100) : ℚ)) ≤ ((pyRound (b * 100) : ℚ)) := by
    exact_mod_cast h2
  exact div_le_div_of_nonneg_right hcast (by norm_num) |>.trans_eq rfl

theorem entryLE_trans : ∀ (a b c : Entry),
    entryLE a b → entryLE b c → entryLE a c := by
  intro a b c hab hbc
  simp only [entryLE, decide_eq_true_eq] at *
  exact le_trans hab hbc

theorem entryLE_total : ∀ (a b : Entry), entryLE a b || entryLE b a := by
  intro a b
  simp only [entryLE, Bool.or_eq_true, decide_eq_true_eq]
  exact le_total a.time b.time

theorem pairwise_entryLE_map {l : List (ℚ × String)}
    (h : (l.map Prod.fst).Pairwise (· < ·)) :
    (l.map mkEntry).Pairwise fun a b => entryLE a b = true := by
  rw [List.pairwise_map] at h ⊢
  refine h.imp ?_
  intro a b hab
  simp only [entryLE, mkEntry, decide_eq_true_eq]
  exact round2_mono (le_of_lt hab)

theorem dictGet_record_self (d : Store) (rows cols : Nat) (t : ℚ)
    (ini : String) :
    dictGet (record d rows cols t ini) (sizeKey rows cols) =
      ((dictGet d (sizeKey rows cols) ++ [mkEntry (t, ini)]).mergeSort
        entryLE).take 10 :=
  dictGet_dictSet_self d (sizeKey rows cols) _

theorem dictGet_recordAll (rows cols : Nat) :
    ∀ (calls : List (ℚ × String)) (d : Store),
      dictGet (recordAll d rows cols calls) (sizeKey rows cols) =
        calls.foldl
          (fun l c => ((l ++ [mkEntry c]).mergeSort entryLE).take 10)
          (dictGet d (sizeKey rows cols))
  | [], _ => rfl
  | c :: cs, d => by
    have hstep :
        recordAll d rows cols (c :: cs) =
          recordAll (record d rows cols c.1 c.2) rows cols cs := rfl
    rw [hstep, dictGet_recordAll rows cols cs (record d rows cols c.1 c.2),
      List.foldl_cons, dictGet_record_self]

theorem topten_fold :
    ∀ (calls done : List (ℚ × String)),
      ((done ++ calls).map Prod.fst).Pairwise (· < ·) →
      calls.foldl (fun l c => ((l ++ [mkEntry c]).mergeSort entryLE).take 10)
          ((done.map mkEntry).take 10)
        = ((done ++ calls).map mkEntry).take 10
  | [], done, _ => by simp
  | c :: cs, done, h => by
    have hparts : (done.map Prod.fst).Pairwise (· < ·) ∧
        ∀ x ∈ done, x.1 < c.1 := by
      rw [List.map_append] at h
      obtain ⟨hdone, _, hcross⟩ := List.pairwise_append.mp h
      refine ⟨hdone, ?_⟩
      intro x hx
      exact hcross x.1 (List.mem_map_of_mem Prod.fst hx) c.1
        (by simp)
    have hA : ((done.map mkEntry).take 10).Pairwise
        fun a b => entryLE a b = true :=
      List.Pairwise.sublist (List.take_sublist 10 _)
        (pairwise_entryLE_map hparts.1)
    have hsorted : ((done.map mkEntry).take 10 ++ [mkEntry c]).Pairwise
        fun a b => entryLE a b = true := by
      rw [List.pairwise_append]
      refine ⟨hA, List.pairwise_singleton _ _, ?_⟩
      intro x hx y hy
      rw [List.mem_singleton] at hy
      subst hy
      have hx2 : x ∈ done.map mkEntry :=
        (List.take_sublist 10 _).subset hx
      obtain ⟨a, ha, rfl⟩ := List.mem_map.mp hx2
      simp only [entryLE, mkEntry, decide_eq_true_eq]
      exact round2_mono (le_of_lt (hparts.2 a ha))
    have hstep :
        (((done.map mkEntry).take 10 ++ [mkEntry c]).mergeSort entryLE).take 10
          = ((done ++ [c]).map mkEntry).take 10 := by
      rw [List.mergeSort_of_sorted hsorted, List.map_append, List.map_singleton,
        take_append_take]
    have hIH := topten_fold cs (done ++ [c])
      (by rwa [List.append_assoc, List.singleton_append])
    rw [List.foldl_cons, hstep, hIH, List.append_assoc, List.singleton_append]

/-- C5: for every prior store, `Leaderboard.record` stores under the key
`"{rows}x{cols}"` the previous entry list with a new entry appended whose
time is the elapsed time rounded to 2 decimals, re-sorted ascending by time
and truncated to at most 10 entries; in particular, 11 calls with strictly
increasing times on an empty store leave exactly the entries of the 10
smallest times, sorted ascending. -/
theorem record_appends_sorts_truncates :
    (∀ (d : Store) (rows cols : Nat) (t : ℚ) (ini : String),
      dictGet (record d rows cols t ini) (sizeKey rows cols) =
        ((dictGet d (sizeKey rows cols) ++
          [({ initials := ini, time := round2 t } : Entry)]).mergeSort
            entryLE).take 10 ∧
      (dictGet (record d rows cols t ini) (sizeKey rows cols)).Pairwise
        (fun a b : Entry => a.time ≤ b.time) ∧
      (dictGet (record d rows cols t ini) (sizeKey rows cols)).length ≤ 10) ∧
    (∀ (rows cols : Nat) (calls : List (ℚ × String)),
      calls.length = 11 →
      (calls.map Prod.fst).Pairwise (· < ·) →
      dictGet (recordAll [] rows cols calls) (sizeKey rows cols) =
        (calls.map mkEntry).take 10 ∧
      ((calls.map mkEntry).take 10).Pairwise
        (fun a b : Entry => a.time ≤ b.time)) := by
  constructor
  · intro d rows cols t ini
    have heq := dictGet_record_self d rows cols t ini
    refine ⟨heq, ?_, ?_⟩
    · rw [heq]
      have hs := List.sorted_mergeSort entryLE_trans entryLE_total
        (dictGet d (sizeKey rows cols) ++ [mkEntry (t, ini)])
      have hs2 := List.Pairwise.sublist (List.take_sublist 10 _) hs
      exact hs2.imp fun hab => by
        simpa only [entryLE, decide_eq_true_eq] using hab
    · rw [heq]
      exact List.length_take_le 10 _
  · intro rows cols calls hlen hsorted
    constructor
    · rw [dictGet_recordAll]
      have h0 := topten_fold calls [] (by simpa using hsorted)
      simpa using h0
    · have := pairwise_entryLE_map hsorted
      have h2 := List.Pairwise.sublist (List.take_sublist 10 _) this
      exact h2.imp fun hab => by
        simpa only [entryLE, decide_eq_true_eq] using hab

/-- Witness for C5: 11 records with increasing integer times on an empty
store keep exactly the 10 smallest, sorted ascending. -/
theorem record_appends_sorts_truncates_witness :
    (([(1, "AA"), (2, "BB"), (3, "CC"), (4, "DD"), (5, "EE"), (6, "FF"),
        (7, "GG"), (8, "HH"), (9, "II"), (10, "JJ"),
        (11, "KK")] : List (ℚ × String)).length = 11 ∧
      (([(1, "AA"), (2, "BB"), (3, "CC"), (4, "DD"), (5, "EE"), (6, "FF"),
        (7, "GG"), (8, "HH"), (9, "II"), (10, "JJ"),
        (11, "KK")] : List (ℚ × String)).map Prod.fst).Pairwise (· < ·)) ∧
    dictGet
        (recordAll [] 3 3
          [(1, "AA"), (2, "BB"), (3, "CC"), (4, "DD"), (5, "EE"), (6, "FF"),
            (7, "GG"), (8, "HH"), (9, "II"), (10, "JJ"), (11, "KK")])
        (sizeKey 3 3)
      = (([(1, "AA"), (2, "BB"), (3, "CC"), (4, "DD"), (5, "EE"), (6, "FF"),
          (7, "GG"), (8, "HH"), (9, "II"), (10, "JJ"),
          (11, "KK")] : List (ℚ × String)).map mkEntry).take 10 :=
  ⟨⟨by decide, by decide⟩,
    (record_appends_sorts_truncates.2 3 3
      [(1, "AA"), (2, "BB"), (3, "CC"), (4, "DD"), (5, "EE"), (6, "FF"),
        (7, "GG"), (8, "HH"), (9, "II"), (10, "JJ"), (11, "KK")]
      (by decide) (by decide)).1⟩
